import Mathlib

/-!
The scoring routine and the view of `src/App.js` (crypto-scam-checkers).

A shallow embedding of the component `CryptoScamChecker`:

* strings are Lean strings, `startsWith` and `includes` are defined on their characters;
* a call of `Math.random()` is a `Draw`, a double in `[0,1)` given by its significand and
  its scale, and the component reads them from a stream `Nat → Draw` in call order; the
  product `r * k` is rounded to a double (to nearest, ties to even) before `Math.floor`;
* the platform constructor `new URL(s)` followed by `.hostname` is a parameter
  `parse : String → Option String`, `none` standing for the thrown `TypeError`;
  `urlHostname` is a small model of it that is only evaluated at concrete inputs;
* the view is a record of the four `useState` cells together with the queue of suspended
  runs of `analyzeUrl`, and a step function over the user and timer events.
-/

set_option autoImplicit false

namespace CryptoScamChecker

/-! ## Strings -/

/-- Character-level `String.prototype.startsWith`: `startsWithChars s p` holds when `p`
is an initial segment of `s`. -/
def startsWithChars : List Char → List Char → Bool
  | _, [] => true
  | [], _ :: _ => false
  | c :: cs, p :: ps => c == p && startsWithChars cs ps

/-- Character-level `String.prototype.includes`: `p` occurs somewhere in `s`. -/
def includesChars : List Char → List Char → Bool
  | [], p => startsWithChars [] p
  | c :: cs, p => startsWithChars (c :: cs) p || includesChars cs p

/-- The method `s.startsWith(p)`. -/
def startsWith (s p : String) : Bool := startsWithChars s.data p.data

/-- The method `s.includes(p)`. -/
def includes (s p : String) : Bool := includesChars s.data p.data

/-! ## Random draws -/

/-- One value returned by `Math.random()`: a double in `[0,1)`, the number
`mant / 2 ^ scale` with a significand of at most 53 bits and a scale within the exponent
range of doubles. Every double in `[0,1)` is of this form: a normal one has
`2 ^ 52 ≤ mant` and `53 ≤ scale ≤ 1074`, a subnormal one and zero have `scale = 1074`. -/
structure Draw where
  mant : Nat
  scale : Nat
  mant_lt : mant < 2 ^ 53
  scale_le : scale ≤ 1074
  lt_one : mant < 2 ^ scale

/-- The weight of the last kept bit when `n` is cut to 53 significant bits: the least
power of two `u`, from `u` upwards, with `n < u * 2 ^ 53`. -/
def doubleUnit : Nat → Nat → Nat → Nat
  | 0, _, u => u
  | fuel + 1, n, u => if n < u * 2 ^ 53 then u else doubleUnit fuel n (2 * u)

/-- The significand arithmetic of a double operation: `n` rounded to 53 significant bits,
to nearest, ties to even. -/
def roundToDouble (n : Nat) : Nat :=
  let unit := doubleUnit n n 1
  let kept := n / unit
  let lost := n % unit
  if 2 * lost > unit ∨ (2 * lost = unit ∧ kept % 2 = 1) then (kept + 1) * unit
  else kept * unit

/-- The expression `Math.floor(Math.random() * k)` for the draw `d` and a small integer
`k`: the exact product `mant * k / 2 ^ scale` is rounded to a double, then floored. -/
def floorMul (d : Draw) (k : Nat) : Nat := roundToDouble (d.mant * k) / 2 ^ d.scale

/-- The double `0.5`. -/
def half : Draw := ⟨1, 1, by decide, by decide, by decide⟩

/-- The double `0.6666666666666666`, the double next below two thirds. -/
def twoThirds : Draw := ⟨6004799503160661, 53, by decide, by decide, by decide⟩

/-- The double `0.6`. -/
def sixTenths : Draw := ⟨5404319552844595, 53, by decide, by decide, by decide⟩

/-- The stream of draws that starts with `ds` and continues with `0.5`. -/
def drawsOf (ds : List Draw) : Nat → Draw := fun i => ds.getD i half

/-! ## Static tables -/

/-- The record `scamIndicators` (lines 16-20). -/
structure ScamIndicators where
  domains : List String
  keywords : List String
  suspiciousPatterns : List String

/-- The mock database of known scam indicators. -/
def scamIndicators : ScamIndicators where
  domains := ["crypto-quick-profit.com", "bitcoin-generator.net", "instant-crypto.org"]
  keywords := ["guaranteed profit", "double your crypto", "free bitcoin", "instant returns",
    "risk-free investment"]
  suspiciousPatterns := ["telegram.me", "bit.ly", "tinyurl.com"]

/-- An entry of the catalog `randomFactors`. -/
structure RandomFactor where
  factor : String
  score : Int

/-- The catalog `randomFactors` (lines 53-59). -/
def randomFactors : List RandomFactor :=
  [ { factor := "Domain registered recently", score := 25 },
    { factor := "No social media presence", score := 15 },
    { factor := "Promises unrealistic returns", score := 30 },
    { factor := "Poor website design/grammar", score := 10 },
    { factor := "No regulatory compliance mentioned", score := 20 } ]

/-! ## Level and recommendations -/

/-- The function `getRiskLevel` (lines 99-103). -/
def getRiskLevel (score : Int) : String :=
  if score ≥ 70 then "HIGH"
  else if score ≥ 40 then "MEDIUM"
  else "LOW"

/-- The function `getRecommendations` (lines 121-143). -/
def getRecommendations (score : Int) : List String :=
  if score ≥ 70 then
    ["Do not proceed with this website",
     "Report to relevant authorities",
     "Warn others about this potential scam",
     "Check official sources for legitimate alternatives"]
  else if score ≥ 40 then
    ["Exercise extreme caution",
     "Verify through multiple sources",
     "Check for official regulatory approval",
     "Start with minimal investment if proceeding"]
  else
    ["Appears relatively safe but stay vigilant",
     "Always do your own research",
     "Verify credentials and licensing",
     "Never invest more than you can afford to lose"]

/-! ## Domain extraction -/

/-- The argument handed to `new URL` by `extractDomain` (line 93). -/
def candidate (url : String) : String :=
  if startsWith url "http" then url else "https://" ++ url

/-- The function `extractDomain` (lines 91-97); `parse s` is `new URL(s).hostname`,
and `none` is the exception caught by the `catch` branch. -/
def extractDomain (parse : String → Option String) (url : String) : String :=
  match parse (candidate url) with
  | some hostname => hostname
  | none => url

/-! ## A model of the platform URL parser

`urlHostname s` models `new URL(s).hostname` without a base URL, following the steps of the
URL standard for the hostname only: input clean-up, the scheme, the authority of special
and non-special schemes, credentials, the port and the host. It is exact for hosts written
with ASCII letters, digits, `-`, `_` and `.` whose last label is not a number; it does not
model percent-decoding, internationalised names, IPv4 number forms, IPv6 literals or
`file:` URLs. The general theorems below take the parser as a parameter; this model is
only evaluated at concrete inputs made of such hosts. -/

/-- The backslash, which special schemes treat like a slash. -/
def backslash : Char := Char.ofNat 92

/-- Leading and trailing C0 controls and spaces are removed, then every tab and newline. -/
def cleanInput (cs : List Char) : List Char :=
  let trimmed := ((cs.dropWhile (fun c => c.toNat ≤ 32)).reverse.dropWhile
    (fun c => c.toNat ≤ 32)).reverse
  trimmed.filter (fun c => !(c.toNat == 9 || c.toNat == 10 || c.toNat == 13))

/-- The characters allowed in a scheme after its first letter. -/
def isSchemeChar (c : Char) : Bool :=
  c.isAlphanum || c == '+' || c == '-' || c == '.'

/-- The scheme (lower-cased) and what follows its colon; `none` when the input has no
scheme, which without a base URL is a parse failure. -/
def splitScheme (cs : List Char) : Option (List Char × List Char) :=
  match cs with
  | [] => none
  | c :: _ =>
    if c.isAlpha then
      match cs.dropWhile isSchemeChar with
      | ':' :: rest => some ((cs.takeWhile isSchemeChar).map Char.toLower, rest)
      | _ => none
    else none

/-- The special schemes other than `file`. -/
def specialSchemes : List String := ["http", "https", "ws", "wss", "ftp"]

/-- The characters that end the authority. -/
def endsAuthority (special : Bool) (c : Char) : Bool :=
  c == '/' || c == '?' || c == (Char.ofNat 35) || (special && c == backslash)

/-- The forbidden host code points. -/
def forbiddenHostChar (c : Char) : Bool :=
  [0, 9, 10, 13, 32, 35, 47, 58, 60, 62, 63, 64, 91, 92, 93, 94, 124].contains c.toNat

/-- The forbidden domain code points. -/
def forbiddenDomainChar (c : Char) : Bool :=
  forbiddenHostChar c || c.toNat ≤ 31 || c.toNat == 37 || c.toNat == 127

/-- The value of a string of decimal digits. -/
def digitsValue (ds : List Char) : Nat :=
  ds.foldl (fun n c => 10 * n + (c.toNat - 48)) 0

/-- The host of an authority: credentials end at the last `@`, the port follows the
first `:` after them. `none` is a parse failure. -/
def hostOfAuthority (special : Bool) (authority : List Char) : Option (List Char) :=
  let hostport := (authority.reverse.takeWhile (fun c => c != '@')).reverse
  let host := hostport.takeWhile (fun c => c != ':')
  let port := (hostport.dropWhile (fun c => c != ':')).drop 1
  if authority.contains '@' && hostport.isEmpty then none
  else if host.isEmpty && (special || hostport.contains ':') then none
  else if !(port.all Char.isDigit) || digitsValue port > 65535 then none
  else if special then
    if host.any forbiddenDomainChar then none else some (host.map Char.toLower)
  else
    if host.any forbiddenHostChar then none else some host

/-- A model of `new URL(s).hostname`; `none` is the thrown `TypeError`. -/
def urlHostname (s : String) : Option String :=
  match splitScheme (cleanInput s.data) with
  | none => none
  | some (scheme, rest) =>
    if specialSchemes.contains (String.mk scheme) then
      let afterSlashes := rest.dropWhile (fun c => c == '/' || c == backslash)
      (hostOfAuthority true (afterSlashes.takeWhile (fun c => !endsAuthority true c))).map
        String.mk
    else
      match rest with
      | '/' :: '/' :: more =>
        (hostOfAuthority false (more.takeWhile (fun c => !endsAuthority false c))).map
          String.mk
      | _ => some ""

/-! ## The scoring routine -/

/-- The object `analysis` built at lines 74-82. -/
structure Analysis where
  url : String
  domain : String
  riskScore : Int
  riskLevel : String
  riskFactors : List String
  timestamp : String
  recommendations : List String
  deriving DecidableEq

/-- The two mutable locals `riskScore` and `riskFactors` of `analyzeUrl`. -/
structure Acc where
  riskScore : Int
  riskFactors : List String
  deriving DecidableEq

/-- Lines 33-38: the check of the domain against the known scams. -/
def checkDomain (domain : String) (a : Acc) : Acc :=
  if scamIndicators.domains.any (fun scam => includes domain scam) then
    { riskScore := a.riskScore + 40,
      riskFactors := a.riskFactors ++ ["Domain matches known scam database"] }
  else a

/-- Lines 40-44: the check for suspicious patterns. -/
def checkPatterns (url : String) (a : Acc) : Acc :=
  if scamIndicators.suspiciousPatterns.any (fun pattern => includes url pattern) then
    { riskScore := a.riskScore + 20,
      riskFactors := a.riskFactors ++ ["Uses URL shortener or suspicious redirect"] }
  else a

/-- Lines 46-50: the check for HTTPS. -/
def checkHttps (url : String) (a : Acc) : Acc :=
  if !startsWith url "https://" then
    { riskScore := a.riskScore + 15,
      riskFactors := a.riskFactors ++ ["Not using secure HTTPS connection"] }
  else a

/-- The three fixed checks in program order, from `riskScore = 0` and `riskFactors = []`. -/
def fixedChecks (domain url : String) : Acc :=
  checkHttps url (checkPatterns url (checkDomain domain { riskScore := 0, riskFactors := [] }))

/-- The value `numFactors` of line 62; the first draw of the run is used. -/
def numFactors (rnd : Nat → Draw) : Nat := floorMul (rnd 0) 3 + 1

/-- The index computed at line 64 in iteration `i`; iteration `i` uses draw `i + 1`. -/
def pickIndex (rnd : Nat → Draw) (i : Nat) : Nat := floorMul (rnd (i + 1)) randomFactors.length

/-- The loop of lines 63-69, with `remaining = numFactors - i` iterations still to run.
Reading `factor.factor` of an `undefined` catalog entry throws: that is `none`. -/
def fillerLoop (rnd : Nat → Draw) : Nat → Nat → Acc → Option Acc
  | 0, _, a => some a
  | remaining + 1, i, a =>
    match randomFactors[pickIndex rnd i]? with
    | none => none
    | some factor =>
      if factor.factor ∈ a.riskFactors then fillerLoop rnd remaining (i + 1) a
      else fillerLoop rnd remaining (i + 1)
        { riskScore := a.riskScore + factor.score,
          riskFactors := a.riskFactors ++ [factor.factor] }

/-- Lines 30-69: the score before the cap, and the factor list. -/
def scoreUrl (parse : String → Option String) (url : String) (rnd : Nat → Draw) :
    Option Acc :=
  fillerLoop rnd (numFactors rnd) 0 (fixedChecks (extractDomain parse url) url)

/-- Lines 30-82: the body of `analyzeUrl` after the delay, for the captured `url`;
`timestamp` is the value of `new Date().toISOString()`. -/
def analyze (parse : String → Option String) (url : String) (rnd : Nat → Draw)
    (timestamp : String) : Option Analysis :=
  match scoreUrl parse url rnd with
  | none => none
  | some a =>
    let riskScore := min a.riskScore 100
    some { url := url
           domain := extractDomain parse url
           riskScore := riskScore
           riskLevel := getRiskLevel riskScore
           riskFactors := a.riskFactors
           timestamp := timestamp
           recommendations := getRecommendations riskScore }

/-! ## The view -/

/-- The state of the component: the `useState` cells `url`, `isAnalyzing`, `result` and
`recentScans`, and for every run of `analyzeUrl` suspended at the delay of line 28 the
`url` it captured, oldest first. -/
structure View where
  url : String
  isAnalyzing : Bool
  result : Option Analysis
  recentScans : List Analysis
  pending : List String
  deriving DecidableEq

/-- The initial values of the `useState` cells (lines 5-8). -/
def View.init : View where
  url := ""
  isAnalyzing := false
  result := none
  recentScans := []
  pending := []

/-- The events of the view: typing in the input (`onChange`), a click on the button, the
Enter key in the input (`onKeyPress`), and the end of the delay of the oldest suspended
run, which then reads its draws and the clock. -/
inductive Event where
  | typing (text : String)
  | click
  | enter
  | delayDone (rnd : Nat → Draw) (timestamp : String)

/-- The attribute `disabled` of the button (line 555). -/
def buttonDisabled (s : View) : Bool := s.isAnalyzing || s.url == ""

/-- Lines 22-28: a call of `analyzeUrl` up to its suspension. -/
def analyzeUrlStart (s : View) : View :=
  if s.url = "" then s
  else { s with isAnalyzing := true, pending := s.pending ++ [s.url] }

/-- The updater of line 87. -/
def pushScan (analysis : Analysis) (prev : List Analysis) : List Analysis :=
  analysis :: prev.take 4

/-- Lines 84-88: the state updates at the end of a run. -/
def complete (analysis : Analysis) (s : View) : View :=
  { s with result := some analysis
           recentScans := pushScan analysis s.recentScans
           isAnalyzing := false }

/-- Lines 30-88: the oldest suspended run resumes. An exception in the body ends the run
without any state update. -/
def analyzeUrlResume (parse : String → Option String) (rnd : Nat → Draw)
    (timestamp : String) (s : View) : View :=
  match s.pending with
  | [] => s
  | url :: rest =>
    match analyze parse url rnd timestamp with
    | none => { s with pending := rest }
    | some analysis => complete analysis { s with pending := rest }

/-- One step of the view. A click reaches `analyzeUrl` only when the button is enabled;
the Enter key calls it directly (line 551). -/
def step (parse : String → Option String) (s : View) : Event → View
  | .typing text => { s with url := text }
  | .click => if buttonDisabled s then s else analyzeUrlStart s
  | .enter => analyzeUrlStart s
  | .delayDone rnd timestamp => analyzeUrlResume parse rnd timestamp s

/-- The state after a sequence of events. -/
def run (parse : String → Option String) (s : View) (events : List Event) : View :=
  events.foldl (step parse) s

/-! ## Specification-side quantities -/

/-- The weight of the catalog entry with index `idx`. -/
def weightOf (idx : Nat) : Int :=
  match randomFactors[idx]? with
  | some factor => factor.score
  | none => 0

/-- The indices picked in iterations `i`, `i + 1`, ... , `i + n - 1` of the loop. -/
def picksFrom (rnd : Nat → Draw) : Nat → Nat → List Nat
  | _, 0 => []
  | i, n + 1 => pickIndex rnd i :: picksFrom rnd (i + 1) n

/-- The indices picked by a run: one per iteration, `numFactors` of them. -/
def picks (rnd : Nat → Draw) : List Nat := picksFrom rnd 0 (numFactors rnd)

/-- The quantity `F` of the specification: the sum of the fixed weights that fire. -/
def fixedScore (domain url : String) : Int :=
  (if scamIndicators.domains.any (fun scam => includes domain scam) then 40 else 0)
  + (if scamIndicators.suspiciousPatterns.any (fun pattern => includes url pattern)
      then 20 else 0)
  + (if startsWith url "https://" then 0 else 15)

/-- The quantity `R` of the specification: the weights of the distinct catalog entries
among the picks, each counted once. -/
def fillerScore (rnd : Nat → Draw) : Int :=
  ∑ idx in (picks rnd).toFinset, weightOf idx

/-- The labels of the fixed checks that fire, in program order. -/
def fixedFactors (domain url : String) : List String :=
  (if scamIndicators.domains.any (fun scam => includes domain scam)
    then ["Domain matches known scam database"] else [])
  ++ (if scamIndicators.suspiciousPatterns.any (fun pattern => includes url pattern)
    then ["Uses URL shortener or suspicious redirect"] else [])
  ++ (if startsWith url "https://" then [] else ["Not using secure HTTPS connection"])

/-- The history after the analyses `rs` have completed in this order, starting from the
initial view. -/
def historyAfter (rs : List Analysis) : List Analysis :=
  (rs.foldl (fun s r => complete r s) View.init).recentScans

/-- Specification side, "the input has a scheme": it starts with a letter, continues with
letters, digits, `+`, `-` or `.`, and a colon follows. -/
def hasScheme (url : String) : Bool := (splitScheme url.data).isSome

/-- Specification side: the list of recommendations of the tier `HIGH`. -/
def doNotProceed : List String :=
  ["Do not proceed with this website",
   "Report to relevant authorities",
   "Warn others about this potential scam",
   "Check official sources for legitimate alternatives"]

/-- Specification side: the list of recommendations of the tier `MEDIUM`. -/
def extremeCaution : List String :=
  ["Exercise extreme caution",
   "Verify through multiple sources",
   "Check for official regulatory approval",
   "Start with minimal investment if proceeding"]

/-- Specification side: the list of recommendations of the tier `LOW`. -/
def relativelySafe : List String :=
  ["Appears relatively safe but stay vigilant",
   "Always do your own research",
   "Verify credentials and licensing",
   "Never invest more than you can afford to lose"]

/-- Specification side: the filler labels of a factor list, those that are labels of the
catalog, in their order of appearance. -/
def fillerLabels (riskFactors : List String) : List String :=
  riskFactors.filter (fun l => randomFactors.any (fun f => f.factor == l))

/-! ## Lemmas on the draws and the catalog -/

theorem doubleUnit_pos : ∀ (fuel n u : Nat), 0 < u → 0 < doubleUnit fuel n u := by
  intro fuel
  induction fuel with
  | zero => intro n u h; exact h
  | succ fuel ih =>
    intro n u h
    unfold doubleUnit
    split_ifs
    · exact h
    · exact ih n (2 * u) (by omega)

theorem doubleUnit_le : ∀ (fuel n u : Nat), (u * 2 ^ 52 ≤ n ∨ u = 1) →
    (doubleUnit fuel n u * 2 ^ 52 ≤ n ∨ doubleUnit fuel n u = 1) := by
  intro fuel
  induction fuel with
  | zero => intro n u h; exact h
  | succ fuel ih =>
    intro n u h
    unfold doubleUnit
    split_ifs with hc
    · exact h
    · exact ih n (2 * u) (Or.inl (by omega))

theorem doubleUnit_gt : ∀ (fuel n u : Nat), n < u * 2 ^ 53 * 2 ^ fuel →
    n < doubleUnit fuel n u * 2 ^ 53 := by
  intro fuel
  induction fuel with
  | zero => intro n u h; simpa [doubleUnit] using h
  | succ fuel ih =>
    intro n u h
    unfold doubleUnit
    split_ifs with hc
    · exact hc
    · apply ih
      calc n < u * 2 ^ 53 * 2 ^ (fuel + 1) := h
        _ = 2 * u * 2 ^ 53 * 2 ^ fuel := by ring

/-- The fuel of `roundToDouble` is enough: the unit it uses leaves at most 53 bits. -/
theorem doubleUnit_enough (n : Nat) : n < doubleUnit n n 1 * 2 ^ 53 := by
  apply doubleUnit_gt
  calc n < 2 ^ n := Nat.lt_two_pow n
    _ ≤ 1 * 2 ^ 53 * 2 ^ n := by
        rw [Nat.one_mul]; exact Nat.le_mul_of_pos_left _ (Nat.pow_pos (by decide))

theorem roundToDouble_le (n : Nat) :
    2 * roundToDouble n ≤ 2 * n + doubleUnit n n 1 := by
  unfold roundToDouble
  have hpos : 0 < doubleUnit n n 1 := doubleUnit_pos n n 1 (by decide)
  generalize doubleUnit n n 1 = u at hpos ⊢
  have hdm := Nat.div_add_mod n u
  have hlt := Nat.mod_lt n hpos
  have hmul : (n / u + 1) * u = u * (n / u) + u := by ring
  have hmul2 : n / u * u = u * (n / u) := Nat.mul_comm _ _
  simp only []
  split_ifs with hc
  · rw [hmul]
    rcases hc with hc | ⟨hc, -⟩ <;> omega
  · rw [hmul2]; omega

theorem floorMul_lt (d : Draw) (k : Nat) (hk : 0 < k) : floorMul d k < k := by
  unfold floorMul
  rw [Nat.div_lt_iff_lt_mul (Nat.pow_pos (by decide))]
  have hq : d.mant * k + k ≤ k * 2 ^ d.scale := by
    have := Nat.mul_le_mul_left k (Nat.succ_le_of_lt d.lt_one)
    rw [Nat.mul_succ] at this
    rw [Nat.mul_comm d.mant k]; exact this
  have hm : d.mant * k < 2 ^ 53 * k := Nat.mul_lt_mul_of_lt_of_le d.mant_lt (Nat.le_refl k) hk
  have hR := roundToDouble_le (d.mant * k)
  have hu := doubleUnit_le (d.mant * k) (d.mant * k) 1 (Or.inr rfl)
  generalize doubleUnit (d.mant * k) (d.mant * k) 1 = u at hR hu
  generalize roundToDouble (d.mant * k) = R at hR
  generalize d.mant * k = n at *
  generalize k * 2 ^ d.scale = X at *
  omega

theorem pickIndex_lt (rnd : Nat → Draw) (i : Nat) : pickIndex rnd i < 5 := by
  unfold pickIndex
  exact floorMul_lt _ _ (by decide)

theorem numFactors_pos (rnd : Nat → Draw) : 1 ≤ numFactors rnd := by
  unfold numFactors; omega

theorem numFactors_le (rnd : Nat → Draw) : numFactors rnd ≤ 3 := by
  unfold numFactors
  have := floorMul_lt (rnd 0) 3 (by decide)
  omega

theorem catalog_get (idx : Nat) (h : idx < 5) : ∃ f, randomFactors[idx]? = some f := by
  interval_cases idx <;> exact ⟨_, rfl⟩

theorem catalog_label_inj (i j : Nat) (f g : RandomFactor)
    (hf : randomFactors[i]? = some f) (hg : randomFactors[j]? = some g) :
    f.factor = g.factor ↔ i = j := by
  have hi : i < 5 := by
    have := (List.getElem?_eq_some.mp hf).1
    simpa [randomFactors] using this
  have hj : j < 5 := by
    have := (List.getElem?_eq_some.mp hg).1
    simpa [randomFactors] using this
  interval_cases i <;> interval_cases j <;>
    simp [randomFactors] at hf hg <;> subst hf <;> subst hg <;> decide

theorem catalog_weight_range (idx : Nat) (f : RandomFactor)
    (hf : randomFactors[idx]? = some f) : 10 ≤ f.score ∧ f.score ≤ 30 := by
  have hi : idx < 5 := by
    have := (List.getElem?_eq_some.mp hf).1
    simpa [randomFactors] using this
  interval_cases idx <;> simp [randomFactors] at hf <;> subst hf <;> decide

theorem catalog_label_not_fixed (idx : Nat) (f : RandomFactor)
    (hf : randomFactors[idx]? = some f) :
    f.factor ≠ "Domain matches known scam database"
    ∧ f.factor ≠ "Uses URL shortener or suspicious redirect"
    ∧ f.factor ≠ "Not using secure HTTPS connection" := by
  have hi : idx < 5 := by
    have := (List.getElem?_eq_some.mp hf).1
    simpa [randomFactors] using this
  interval_cases idx <;> simp [randomFactors] at hf <;> subst hf <;> decide

theorem fixedChecks_eq (domain url : String) :
    fixedChecks domain url
      = { riskScore := fixedScore domain url, riskFactors := fixedFactors domain url } := by
  unfold fixedChecks checkHttps checkPatterns checkDomain fixedScore fixedFactors
  split_ifs <;> simp_all

/-! ## The loop invariant -/

/-- The loop never throws. Started in a state whose catalog labels are exactly those of
the index set `S`, it adds the weights of the picked indices outside `S`, each once, and
appends their labels: pairwise distinct catalog labels that were not in the list. -/
theorem fillerLoop_spec (rnd : Nat → Draw) :
    ∀ (n i : Nat) (a : Acc) (S : Finset Nat),
      (∀ idx f, randomFactors[idx]? = some f → (f.factor ∈ a.riskFactors ↔ idx ∈ S)) →
      ∃ extra : List String,
        fillerLoop rnd n i a
          = some { riskScore := a.riskScore
                      + ∑ idx in (picksFrom rnd i n).toFinset \ S, weightOf idx
                   riskFactors := a.riskFactors ++ extra }
        ∧ extra.Nodup
        ∧ (∀ l ∈ extra, l ∉ a.riskFactors ∧ ∃ f ∈ randomFactors, f.factor = l)
        ∧ extra.length = ((picksFrom rnd i n).toFinset \ S).card := by
  intro n
  induction n with
  | zero =>
    intro i a S _
    exact ⟨[], by simp [fillerLoop, picksFrom], List.nodup_nil, by simp, by simp [picksFrom]⟩
  | succ n ih =>
    intro i a S hS
    obtain ⟨f, hf⟩ := catalog_get (pickIndex rnd i) (pickIndex_lt rnd i)
    by_cases hmem : f.factor ∈ a.riskFactors
    · have hin : pickIndex rnd i ∈ S := (hS _ _ hf).mp hmem
      obtain ⟨extra, hrun, hnd, hext, hlen⟩ := ih (i + 1) a S hS
      refine ⟨extra, ?_, hnd, hext, ?_⟩
      · simp only [fillerLoop, hf, hmem, if_true, picksFrom, List.toFinset_cons,
          Finset.insert_sdiff_of_mem _ hin]
        exact hrun
      · simp only [picksFrom, List.toFinset_cons, Finset.insert_sdiff_of_mem _ hin]
        exact hlen
    · have hout : pickIndex rnd i ∉ S := fun h => hmem ((hS _ _ hf).mpr h)
      have hS2 : ∀ idx g, randomFactors[idx]? = some g →
          (g.factor ∈ a.riskFactors ++ [f.factor] ↔ idx ∈ insert (pickIndex rnd i) S) := by
        intro idx g hg
        rw [List.mem_append, List.mem_singleton, Finset.mem_insert, hS idx g hg,
          catalog_label_inj idx (pickIndex rnd i) g f hg hf]
        exact or_comm
      obtain ⟨extra, hrun, hnd, hext, hlen⟩ :=
        ih (i + 1) { riskScore := a.riskScore + f.score,
                     riskFactors := a.riskFactors ++ [f.factor] }
          (insert (pickIndex rnd i) S) hS2
      have hset : (picksFrom rnd i (n + 1)).toFinset \ S
          = insert (pickIndex rnd i)
              ((picksFrom rnd (i + 1) n).toFinset \ insert (pickIndex rnd i) S) := by
        ext x
        simp only [picksFrom, List.toFinset_cons, Finset.mem_sdiff, Finset.mem_insert]
        constructor
        · rintro ⟨h1 | h1, h2⟩
          · exact Or.inl h1
          · by_cases hx : x = pickIndex rnd i
            · exact Or.inl hx
            · exact Or.inr ⟨h1, fun h => h.elim hx h2⟩
        · rintro (h1 | ⟨h1, h2⟩)
          · exact ⟨Or.inl h1, h1 ▸ hout⟩
          · exact ⟨Or.inr h1, fun h => h2 (Or.inr h)⟩
      have hnot : pickIndex rnd i
          ∉ (picksFrom rnd (i + 1) n).toFinset \ insert (pickIndex rnd i) S := by
        simp
      have hw : weightOf (pickIndex rnd i) = f.score := by simp [weightOf, hf]
      refine ⟨f.factor :: extra, ?_, ?_, ?_, ?_⟩
      · simp only [fillerLoop, hf, hmem, if_false]
        rw [hrun, hset, Finset.sum_insert hnot, hw]
        simp [add_assoc]
      · refine List.nodup_cons.mpr ⟨fun h => ?_, hnd⟩
        exact (hext _ h).1 (by simp)
      · intro l hl
        rcases List.mem_cons.mp hl with rfl | hl
        · exact ⟨hmem, f, List.getElem?_mem hf, rfl⟩
        · exact ⟨fun h => (hext l hl).1 (List.mem_append_left _ h), (hext l hl).2⟩
      · rw [hset, Finset.card_insert_of_not_mem hnot, List.length_cons, hlen]

/-- No label of a fixed check is a catalog label. -/
theorem fixedFactors_catalog (domain url : String) (idx : Nat) (f : RandomFactor)
    (hf : randomFactors[idx]? = some f) :
    (f.factor ∈ (fixedChecks domain url).riskFactors ↔ idx ∈ (∅ : Finset Nat)) := by
  obtain ⟨h1, h2, h3⟩ := catalog_label_not_fixed idx f hf
  rw [fixedChecks_eq]
  unfold fixedFactors
  split_ifs <;> simp [h1, h2, h3]

/-- The scoring routine returns: the score before the cap is `F + R`, and the factor list
is the fixed labels followed by pairwise distinct catalog labels, one per distinct pick. -/
theorem scoreUrl_spec (parse : String → Option String) (url : String) (rnd : Nat → Draw) :
    ∃ extra : List String,
      scoreUrl parse url rnd
        = some { riskScore := fixedScore (extractDomain parse url) url + fillerScore rnd
                 riskFactors := fixedFactors (extractDomain parse url) url ++ extra }
      ∧ extra.Nodup
      ∧ (∀ l ∈ extra, l ∉ fixedFactors (extractDomain parse url) url
          ∧ ∃ f ∈ randomFactors, f.factor = l)
      ∧ extra.length = (picks rnd).toFinset.card := by
  obtain ⟨extra, hrun, hnd, hext, hlen⟩ :=
    fillerLoop_spec rnd (numFactors rnd) 0 (fixedChecks (extractDomain parse url) url) ∅
      (fixedFactors_catalog _ _)
  refine ⟨extra, ?_, hnd, ?_, ?_⟩
  · rw [scoreUrl, hrun]
    simp [fixedChecks_eq, fillerScore, picks]
  · simpa [fixedChecks_eq] using hext
  · simpa [picks] using hlen

/-! ## Bounds on the two parts of the score -/

theorem weightOf_range (idx : Nat) (h : idx < 5) : 10 ≤ weightOf idx ∧ weightOf idx ≤ 30 := by
  interval_cases idx <;> decide

theorem weightOf_nonneg (idx : Nat) : 0 ≤ weightOf idx := by
  unfold weightOf
  split
  · next f hf => have := (catalog_weight_range idx f hf).1; omega
  · exact le_refl 0

theorem picksFrom_length (rnd : Nat → Draw) : ∀ n i, (picksFrom rnd i n).length = n := by
  intro n
  induction n with
  | zero => intro i; rfl
  | succ n ih => intro i; simp [picksFrom, ih]

theorem picksFrom_lt (rnd : Nat → Draw) : ∀ n i, ∀ idx ∈ picksFrom rnd i n, idx < 5 := by
  intro n
  induction n with
  | zero => intro i idx h; simp [picksFrom] at h
  | succ n ih =>
    intro i idx h
    rcases List.mem_cons.mp h with rfl | h
    · exact pickIndex_lt rnd i
    · exact ih (i + 1) idx h

theorem picks_card_le (rnd : Nat → Draw) : (picks rnd).toFinset.card ≤ 3 :=
  calc (picks rnd).toFinset.card ≤ (picks rnd).length := List.toFinset_card_le _
    _ = numFactors rnd := picksFrom_length rnd _ _
    _ ≤ 3 := numFactors_le rnd

theorem fixedScore_nonneg (domain url : String) : 0 ≤ fixedScore domain url := by
  unfold fixedScore
  split_ifs <;> decide

theorem fillerScore_nonneg (rnd : Nat → Draw) : 0 ≤ fillerScore rnd :=
  Finset.sum_nonneg fun idx _ => weightOf_nonneg idx

theorem fillerScore_le (rnd : Nat → Draw) : fillerScore rnd ≤ 90 := by
  have h : fillerScore rnd ≤ (picks rnd).toFinset.card • (30 : Int) :=
    Finset.sum_le_card_nsmul _ _ _ fun idx hidx =>
      (weightOf_range idx (picksFrom_lt rnd _ _ idx (List.mem_toFinset.mp hidx))).2
  have hc := picks_card_le rnd
  simp only [nsmul_eq_mul] at h
  have hc2 : ((picks rnd).toFinset.card : Int) ≤ 3 := by exact_mod_cast hc
  linarith

/-- The body of `analyzeUrl` always returns, with the fields computed from `scoreUrl`. -/
theorem analyze_spec (parse : String → Option String) (url : String) (rnd : Nat → Draw)
    (timestamp : String) :
    ∃ (pre : Acc) (r : Analysis),
      scoreUrl parse url rnd = some pre ∧ analyze parse url rnd timestamp = some r
      ∧ r.url = url ∧ r.domain = extractDomain parse url
      ∧ r.riskScore = min pre.riskScore 100
      ∧ r.riskLevel = getRiskLevel r.riskScore
      ∧ r.riskFactors = pre.riskFactors
      ∧ r.recommendations = getRecommendations r.riskScore := by
  obtain ⟨extra, hrun, -⟩ := scoreUrl_spec parse url rnd
  refine ⟨_, { url := url
               domain := extractDomain parse url
               riskScore := min (fixedScore (extractDomain parse url) url + fillerScore rnd) 100
               riskLevel := getRiskLevel
                 (min (fixedScore (extractDomain parse url) url + fillerScore rnd) 100)
               riskFactors := fixedFactors (extractDomain parse url) url ++ extra
               timestamp := timestamp
               recommendations := getRecommendations
                 (min (fixedScore (extractDomain parse url) url + fillerScore rnd) 100) },
    hrun, ?_, rfl, rfl, rfl, rfl, rfl, rfl⟩
  simp only [analyze, hrun]

/-! ## The claims -/

/-- C1: for every URL and every outcome of the random draws, the body of `analyzeUrl`
produces a result, and its `riskScore` is an integer with `0 ≤ riskScore ≤ 100`. -/
theorem riskScore_in_range (parse : String → Option String) (url : String)
    (rnd : Nat → Draw) (timestamp : String) :
    ∃ r, analyze parse url rnd timestamp = some r ∧ 0 ≤ r.riskScore ∧ r.riskScore ≤ 100 := by
  obtain ⟨pre, r, hpre, hr, -, -, hscore, -⟩ := analyze_spec parse url rnd timestamp
  obtain ⟨extra, hrun, -⟩ := scoreUrl_spec parse url rnd
  rw [hrun] at hpre
  have h1 := fixedScore_nonneg (extractDomain parse url) url
  have h2 := fillerScore_nonneg rnd
  have hp : pre.riskScore = fixedScore (extractDomain parse url) url + fillerScore rnd := by
    rw [← Option.some.inj hpre]
  refine ⟨r, hr, ?_, ?_⟩
  · rw [hscore]; exact le_min (by omega) (by decide)
  · rw [hscore]; exact min_le_right _ _

/-- C2: `getRiskLevel score` is `HIGH` iff `score ≥ 70`, `MEDIUM` iff `40 ≤ score < 70` and
`LOW` iff `score < 40`; the boundary values 39, 40, 69, 70 give `LOW`, `MEDIUM`, `MEDIUM`,
`HIGH`; and every result of `analyzeUrl` stores `getRiskLevel` of its own capped score. -/
theorem riskLevel_thresholds :
    (∀ score : Int,
      (getRiskLevel score = "HIGH" ↔ score ≥ 70)
      ∧ (getRiskLevel score = "MEDIUM" ↔ 40 ≤ score ∧ score < 70)
      ∧ (getRiskLevel score = "LOW" ↔ score < 40))
    ∧ getRiskLevel 39 = "LOW" ∧ getRiskLevel 40 = "MEDIUM"
    ∧ getRiskLevel 69 = "MEDIUM" ∧ getRiskLevel 70 = "HIGH"
    ∧ (∀ (parse : String → Option String) (url : String) (rnd : Nat → Draw)
        (timestamp : String),
        ∃ r, analyze parse url rnd timestamp = some r
          ∧ r.riskLevel = getRiskLevel r.riskScore) := by
  refine ⟨fun score => ?_, by decide, by decide, by decide, by decide, ?_⟩
  · unfold getRiskLevel
    refine ⟨?_, ?_, ?_⟩ <;> split_ifs <;>
      first
        | exact ⟨fun _ => by omega, fun _ => rfl⟩
        | exact ⟨fun h => absurd h (by decide), fun h => by omega⟩
  · intro parse url rnd timestamp
    obtain ⟨pre, r, -, hr, -, -, -, hlevel, -⟩ := analyze_spec parse url rnd timestamp
    exact ⟨r, hr, hlevel⟩

/-- A catalog label is none of the three labels of the fixed checks. -/
theorem catalog_mem_not_fixed (l : String) (h : ∃ f ∈ randomFactors, f.factor = l) :
    l ≠ "Domain matches known scam database"
    ∧ l ≠ "Uses URL shortener or suspicious redirect"
    ∧ l ≠ "Not using secure HTTPS connection" := by
  obtain ⟨f, hf, rfl⟩ := h
  obtain ⟨idx, hidx⟩ := List.mem_iff_getElem?.mp hf
  exact catalog_label_not_fixed idx f hidx

/-- The complete description of a run of the body of `analyzeUrl`. -/
theorem analyze_full (parse : String → Option String) (url : String) (rnd : Nat → Draw)
    (timestamp : String) :
    ∃ (extra : List String) (r : Analysis),
      scoreUrl parse url rnd
        = some { riskScore := fixedScore (extractDomain parse url) url + fillerScore rnd
                 riskFactors := fixedFactors (extractDomain parse url) url ++ extra }
      ∧ analyze parse url rnd timestamp = some r
      ∧ r.riskScore = min (fixedScore (extractDomain parse url) url + fillerScore rnd) 100
      ∧ r.riskFactors = fixedFactors (extractDomain parse url) url ++ extra
      ∧ extra.Nodup
      ∧ (∀ l ∈ extra, ∃ f ∈ randomFactors, f.factor = l)
      ∧ extra.length = (picks rnd).toFinset.card := by
  obtain ⟨extra, hrun, hnd, hext, hlen⟩ := scoreUrl_spec parse url rnd
  obtain ⟨pre, r, hpre, hr, -, -, hscore, -, hfac, -⟩ := analyze_spec parse url rnd timestamp
  rw [hrun] at hpre
  have hp := Option.some.inj hpre
  refine ⟨extra, r, hrun, hr, ?_, ?_, hnd, fun l hl => (hext l hl).2, hlen⟩
  · rw [hscore, ← hp]
  · rw [hfac, ← hp]

/-- C3: the score is `min(100, F + R)`: `F` adds 40, 20 and 15 for the three fixed checks
that fire, `R` adds the weight of every distinct catalog entry among the 1 to 3 picks once
(count and picks are the floors of the rounded double products),
and every pick is a catalog index whose weight is in `[10,30]`. For `https://example.com`,
parsed to the host `example.com`, `F = 0` and the score is exactly `R`. -/
theorem riskScore_decomposition (parse : String → Option String) (url : String)
    (rnd : Nat → Draw) (timestamp : String) :
    ∃ r, analyze parse url rnd timestamp = some r
      ∧ r.riskScore = min 100 (fixedScore (extractDomain parse url) url + fillerScore rnd)
      ∧ (picks rnd).length = numFactors rnd ∧ 1 ≤ numFactors rnd ∧ numFactors rnd ≤ 3
      ∧ (∀ idx ∈ picks rnd, idx < 5 ∧ 10 ≤ weightOf idx ∧ weightOf idx ≤ 30)
      ∧ (url = "https://example.com" → parse url = some "example.com" →
          fixedScore (extractDomain parse url) url = 0 ∧ r.riskScore = fillerScore rnd) := by
  obtain ⟨extra, r, -, hr, hscore, -⟩ := analyze_full parse url rnd timestamp
  refine ⟨r, hr, by rw [hscore, min_comm], picksFrom_length rnd _ _, numFactors_pos rnd,
    numFactors_le rnd, fun idx hidx => ?_, fun hurl hparse => ?_⟩
  · have hlt := picksFrom_lt rnd _ _ idx hidx
    exact ⟨hlt, weightOf_range idx hlt⟩
  · subst hurl
    have hcand : candidate "https://example.com" = "https://example.com" := by decide
    have hdom : extractDomain parse "https://example.com" = "example.com" := by
      simp only [extractDomain, hcand, hparse]
    have hF : fixedScore "example.com" "https://example.com" = 0 := by decide
    rw [hdom, hF] at hscore ⊢
    refine ⟨rfl, ?_⟩
    rw [hscore, zero_add]
    exact min_eq_left (le_trans (fillerScore_le rnd) (by decide))

/-- A run of C3 on `https://example.com`: the first draw is `0.6666666666666666`, whose
product with 3 rounds to the double 2, so three entries are picked; the picks 0, 1 and 2
are distinct and their weights 25, 15 and 30 give the score 70. -/
theorem riskScore_decomposition_witness :
    floorMul twoThirds 3 = 2
    ∧ numFactors (drawsOf [twoThirds, ⟨0, 1, by decide, by decide, by decide⟩,
        ⟨1, 2, by decide, by decide, by decide⟩, half]) = 3
    ∧ picks (drawsOf [twoThirds, ⟨0, 1, by decide, by decide, by decide⟩,
        ⟨1, 2, by decide, by decide, by decide⟩, half]) = [0, 1, 2]
    ∧ ∃ r, analyze urlHostname "https://example.com"
          (drawsOf [twoThirds, ⟨0, 1, by decide, by decide, by decide⟩,
            ⟨1, 2, by decide, by decide, by decide⟩, half]) "t" = some r
      ∧ fixedScore (extractDomain urlHostname "https://example.com") "https://example.com" = 0
      ∧ r.riskScore = fillerScore (drawsOf [twoThirds, ⟨0, 1, by decide, by decide, by decide⟩,
          ⟨1, 2, by decide, by decide, by decide⟩, half])
      ∧ r.riskScore = 70 := by
  obtain ⟨r, hr, -, -, -, -, -, hex⟩ :=
    riskScore_decomposition urlHostname "https://example.com"
      (drawsOf [twoThirds, ⟨0, 1, by decide, by decide, by decide⟩,
        ⟨1, 2, by decide, by decide, by decide⟩, half]) "t"
  obtain ⟨h0, hR⟩ := hex rfl (by decide)
  refine ⟨by decide, by decide, by decide, r, hr, h0, hR, ?_⟩
  rw [hR]
  decide

/-- C4, as stated, fails: this URL contains a known-scam domain string in its query, its
hostname is `example.com`, and for every outcome of the draws no 40 is added before the cap
and the factor list lacks `Domain matches known scam database`. -/
theorem scam_string_outside_hostname :
    includes "https://example.com/?ref=crypto-quick-profit.com" "crypto-quick-profit.com" = true
    ∧ urlHostname "https://example.com/?ref=crypto-quick-profit.com" = some "example.com"
    ∧ ∀ (rnd : Nat → Draw) (timestamp : String), ∃ pre r,
        scoreUrl urlHostname "https://example.com/?ref=crypto-quick-profit.com" rnd = some pre
        ∧ analyze urlHostname "https://example.com/?ref=crypto-quick-profit.com" rnd timestamp
            = some r
        ∧ pre.riskScore = fillerScore rnd
        ∧ r.riskScore = fillerScore rnd
        ∧ "Domain matches known scam database" ∉ r.riskFactors := by
  refine ⟨by decide, by decide, fun rnd timestamp => ?_⟩
  obtain ⟨extra, r, hpre, hr, hscore, hfac, -, hcat, -⟩ :=
    analyze_full urlHostname "https://example.com/?ref=crypto-quick-profit.com" rnd timestamp
  have hdom : extractDomain urlHostname "https://example.com/?ref=crypto-quick-profit.com"
      = "example.com" := by decide
  have hF : fixedScore "example.com" "https://example.com/?ref=crypto-quick-profit.com" = 0 := by
    decide
  have hL : fixedFactors "example.com" "https://example.com/?ref=crypto-quick-profit.com"
      = [] := by decide
  rw [hdom, hF, hL] at hpre
  rw [hdom, hF] at hscore
  rw [hdom, hL] at hfac
  refine ⟨_, r, hpre, hr, by simp, ?_, ?_⟩
  · rw [hscore, zero_add]
    exact min_eq_left (le_trans (fillerScore_le rnd) (by decide))
  · rw [hfac]
    intro hmem
    exact (catalog_mem_not_fixed _ (hcat _ (by simpa using hmem))).1 rfl

/-- C4, amended: when the extracted domain contains one of the three known-scam domain
strings, 40 is added to the score before the cap and `Domain matches known scam database`
occurs exactly once in the factor list, for every outcome of the draws. -/
theorem scam_domain_flagged (parse : String → Option String) (url : String)
    (rnd : Nat → Draw) (timestamp : String)
    (h : ∃ scam ∈ scamIndicators.domains, includes (extractDomain parse url) scam = true) :
    ∃ pre r, scoreUrl parse url rnd = some pre
      ∧ analyze parse url rnd timestamp = some r
      ∧ pre.riskScore = 40
          + (if scamIndicators.suspiciousPatterns.any (fun pattern => includes url pattern)
              then 20 else 0)
          + (if startsWith url "https://" then 0 else 15)
          + fillerScore rnd
      ∧ r.riskScore = min pre.riskScore 100
      ∧ r.riskFactors.count "Domain matches known scam database" = 1 := by
  obtain ⟨extra, r, hpre, hr, hscore, hfac, -, hcat, -⟩ :=
    analyze_full parse url rnd timestamp
  have hany : scamIndicators.domains.any (fun scam => includes (extractDomain parse url) scam)
      = true := List.any_eq_true.mpr h
  have hex : extra.count "Domain matches known scam database" = 0 :=
    List.count_eq_zero.mpr fun hmem => (catalog_mem_not_fixed _ (hcat _ hmem)).1 rfl
  refine ⟨_, r, hpre, hr, ?_, hscore, ?_⟩
  · simp only [fixedScore, hany, if_true]
  · rw [hfac, List.count_append, hex]
    simp only [fixedFactors, hany, if_true]
    split_ifs <;> decide

/-- A run of the amended C4 on a known-scam host. -/
theorem scam_domain_flagged_witness :
    ∃ pre r, scoreUrl urlHostname "http://bitcoin-generator.net/start"
          (fun _ => half) = some pre
      ∧ analyze urlHostname "http://bitcoin-generator.net/start"
          (fun _ => half) "t" = some r
      ∧ r.riskFactors.count "Domain matches known scam database" = 1 := by
  obtain ⟨pre, r, hpre, hr, -, -, hcount⟩ :=
    scam_domain_flagged urlHostname "http://bitcoin-generator.net/start"
      (fun _ => half) "t" ⟨"bitcoin-generator.net", by decide, by decide⟩
  exact ⟨pre, r, hpre, hr, hcount⟩

/-- C5: 15 is added to the score before the cap exactly when the URL does not start with
`https://`, and `Not using secure HTTPS connection` is in the factor list exactly in that
case; no filler entry can introduce it. -/
theorem https_check (parse : String → Option String) (url : String)
    (rnd : Nat → Draw) (timestamp : String) :
    ∃ pre r, scoreUrl parse url rnd = some pre
      ∧ analyze parse url rnd timestamp = some r
      ∧ r.riskFactors = pre.riskFactors
      ∧ pre.riskScore
          = (if scamIndicators.domains.any (fun scam => includes (extractDomain parse url) scam)
              then 40 else 0)
          + (if scamIndicators.suspiciousPatterns.any (fun pattern => includes url pattern)
              then 20 else 0)
          + (if startsWith url "https://" then 0 else 15)
          + fillerScore rnd
      ∧ ("Not using secure HTTPS connection" ∈ r.riskFactors
          ↔ startsWith url "https://" = false) := by
  obtain ⟨extra, r, hpre, hr, -, hfac, -, hcat, -⟩ := analyze_full parse url rnd timestamp
  have hex : "Not using secure HTTPS connection" ∉ extra :=
    fun hmem => (catalog_mem_not_fixed _ (hcat _ hmem)).2.2 rfl
  refine ⟨_, r, hpre, hr, hfac, rfl, ?_⟩
  rw [hfac, List.mem_append]
  unfold fixedFactors
  split_ifs <;> simp_all

theorem historyAfter_eq (rs : List Analysis) : historyAfter rs = rs.reverse.take 5 := by
  induction rs using List.reverseRecOn with
  | nil => rfl
  | append_singleton rs r ih =>
    unfold historyAfter at ih ⊢
    rw [List.foldl_append, List.foldl_cons, List.foldl_nil, List.reverse_append]
    show pushScan r (List.foldl (fun s r => complete r s) View.init rs).recentScans = _
    rw [ih]
    simp [pushScan, List.take_take]

/-- C6: an update of the history is "prepend, then keep 5"; from the empty history, after
the analyses `rs` the history is the `min(n,5)` most recent results, newest first; it never
has more than 5 entries; after six analyses it is `[r6, r5, r4, r3, r2]`. -/
theorem history_capped (rs : List Analysis) (analysis : Analysis) (prev : List Analysis)
    (r1 r2 r3 r4 r5 r6 : Analysis) :
    pushScan analysis prev = (analysis :: prev).take 5
    ∧ historyAfter rs = rs.reverse.take (min rs.length 5)
    ∧ (historyAfter rs).length ≤ 5
    ∧ (historyAfter rs).length = min rs.length 5
    ∧ historyAfter [r1, r2, r3, r4, r5, r6] = [r6, r5, r4, r3, r2] := by
  refine ⟨rfl, ?_, ?_, ?_, rfl⟩
  · rw [historyAfter_eq]
    rcases Nat.le_total rs.length 5 with h | h
    · rw [min_eq_left h, List.take_of_length_le (by simpa using h),
        List.take_of_length_le (by simp)]
    · rw [min_eq_right h]
  · rw [historyAfter_eq, List.length_take]
    exact min_le_left _ _
  · rw [historyAfter_eq, List.length_take, List.length_reverse, min_comm]

theorem startsWithChars_append (p q : List Char) :
    ∀ s : List Char, startsWithChars s (p ++ q) = true → startsWithChars s p = true := by
  induction p with
  | nil => intro s _; cases s <;> rfl
  | cons c p ih =>
    intro s h
    cases s with
    | nil => simp [startsWithChars] at h
    | cons d s =>
      simp only [List.cons_append, startsWithChars, Bool.and_eq_true] at h ⊢
      exact ⟨h.1, ih s h.2⟩

theorem startsWith_http (url : String)
    (h : startsWith url "http://" = true ∨ startsWith url "https://" = true) :
    startsWith url "http" = true := by
  rcases h with h | h
  · exact startsWithChars_append "http".data "://".data url.data h
  · have h2 := startsWithChars_append "http".data "s://".data url.data h
    exact h2

/-- C7, as stated, fails in both directions: `httpbin.org/get` has no scheme and is not
prefixed, so the parse fails and the raw input comes back instead of the hostname of
`https://httpbin.org/get`; `ftp://example.com` has a scheme and is prefixed all the same,
so the result is `ftp` and not its own hostname. -/
theorem scheme_test_is_http_test :
    hasScheme "httpbin.org/get" = false
    ∧ candidate "httpbin.org/get" = "httpbin.org/get"
    ∧ urlHostname "https://httpbin.org/get" = some "httpbin.org"
    ∧ extractDomain urlHostname "httpbin.org/get" = "httpbin.org/get"
    ∧ hasScheme "ftp://example.com" = true
    ∧ candidate "ftp://example.com" = "https://ftp://example.com"
    ∧ urlHostname "ftp://example.com" = some "example.com"
    ∧ extractDomain urlHostname "ftp://example.com" = "ftp" := by
  decide

/-- C7, amended: an input that does not start with `http` is prefixed with `https://` and
yields the hostname of the parse of the prefixed string; an input that starts with
`http://` or `https://` is parsed as given and yields its own hostname; in both cases the
raw input comes back when the parse fails. -/
theorem extractDomain_candidate (parse : String → Option String) (url : String) :
    (startsWith url "http" = false →
      candidate url = "https://" ++ url
      ∧ extractDomain parse url = (parse ("https://" ++ url)).getD url)
    ∧ (startsWith url "http://" = true ∨ startsWith url "https://" = true →
      candidate url = url ∧ extractDomain parse url = (parse url).getD url) := by
  constructor
  · intro h
    have hc : candidate url = "https://" ++ url := by simp [candidate, h]
    refine ⟨hc, ?_⟩
    unfold extractDomain
    rw [hc]
    cases parse ("https://" ++ url) <;> rfl
  · intro h
    have hc : candidate url = url := by simp [candidate, startsWith_http url h]
    refine ⟨hc, ?_⟩
    unfold extractDomain
    rw [hc]
    cases parse url <;> rfl

/-- Both cases of the amended C7 on concrete inputs. -/
theorem extractDomain_candidate_witness :
    extractDomain urlHostname "example.com/path" = "example.com"
    ∧ extractDomain urlHostname "http://Example.com/x" = "example.com" :=
  ⟨((extractDomain_candidate urlHostname "example.com/path").1 (by decide)).2.trans
      (by decide),
   ((extractDomain_candidate urlHostname "http://Example.com/x").2
      (Or.inl (by decide))).2.trans (by decide)⟩

/-- C8: the body of `analyzeUrl` always produces a result whose `domain` is the value of
`extractDomain`; when the parse of the candidate fails, that value is the raw input,
unchanged, and it is the `domain` of the result. -/
theorem parse_failure_absorbed (parse : String → Option String) (url : String)
    (rnd : Nat → Draw) (timestamp : String) (h : parse (candidate url) = none) :
    extractDomain parse url = url
    ∧ ∃ r, analyze parse url rnd timestamp = some r ∧ r.domain = url := by
  have hd : extractDomain parse url = url := by simp only [extractDomain, h]
  obtain ⟨pre, r, -, hr, -, hdom, -⟩ := analyze_spec parse url rnd timestamp
  exact ⟨hd, r, hr, hdom.trans hd⟩

/-- A run of C8: a host with a space does not parse, and the raw input is the domain. -/
theorem parse_failure_absorbed_witness :
    urlHostname (candidate "exa mple.com") = none
    ∧ candidate "exa mple.com" = "https://exa mple.com"
    ∧ extractDomain urlHostname "exa mple.com" = "exa mple.com"
    ∧ ∃ r, analyze urlHostname "exa mple.com" (fun _ => half) "t" = some r
        ∧ r.domain = "exa mple.com" :=
  ⟨by decide, by decide,
    parse_failure_absorbed urlHostname "exa mple.com" (fun _ => half) "t"
      (by decide)⟩

/-- C9 fails on the code: after typing `a.com` and pressing Enter the view is analyzing
with one suspended run; a click is then ignored, but a second Enter starts a second run,
and both runs complete, each adding a history entry. In every state the Enter key starts a
run as soon as the URL text is not empty, whatever `isAnalyzing` is. -/
theorem enter_key_not_guarded :
    (run urlHostname View.init [.typing "a.com", .enter]).isAnalyzing = true
    ∧ (run urlHostname View.init [.typing "a.com", .enter]).pending = ["a.com"]
    ∧ (run urlHostname View.init [.typing "a.com", .enter, .click]).pending = ["a.com"]
    ∧ (run urlHostname View.init [.typing "a.com", .enter, .enter]).pending
        = ["a.com", "a.com"]
    ∧ (run urlHostname View.init
        [.typing "a.com", .enter, .enter,
         .delayDone (fun _ => half) "t1",
         .delayDone (fun _ => half) "t2"]).recentScans.length = 2
    ∧ (∀ (parse : String → Option String) (s : View), s.isAnalyzing = true →
        step parse s .click = s)
    ∧ (∀ (parse : String → Option String) (s : View), s.url ≠ "" →
        (step parse s .enter).pending = s.pending ++ [s.url]) := by
  refine ⟨by decide, by decide, by decide, by decide, by decide, ?_, ?_⟩
  · intro parse s h
    simp [step, buttonDisabled, h]
  · intro parse s h
    simp [step, analyzeUrlStart, h]

/-- C10: with an empty URL text a call of `analyzeUrl` returns at once and leaves the whole
view unchanged, no run is suspended, whether it comes from the Enter key or from a click;
and the button is disabled. -/
theorem empty_url_is_noop (parse : String → Option String) (s : View) (h : s.url = "") :
    analyzeUrlStart s = s
    ∧ step parse s .enter = s
    ∧ step parse s .click = s
    ∧ buttonDisabled s = true := by
  have h1 : analyzeUrlStart s = s := by simp [analyzeUrlStart, h]
  refine ⟨h1, h1, ?_, by simp [buttonDisabled, h]⟩
  simp [step, buttonDisabled, h]

/-- A run of C10 in the view reached after one completed analysis and clearing the input. -/
theorem empty_url_is_noop_witness :
    (run urlHostname View.init
      [.typing "a.com", .enter, .delayDone (fun _ => half) "t",
       .typing ""]).url = ""
    ∧ (run urlHostname View.init
      [.typing "a.com", .enter, .delayDone (fun _ => half) "t",
       .typing ""]).recentScans.length = 1
    ∧ step urlHostname (run urlHostname View.init
      [.typing "a.com", .enter, .delayDone (fun _ => half) "t",
       .typing ""]) .enter
      = run urlHostname View.init
      [.typing "a.com", .enter, .delayDone (fun _ => half) "t",
       .typing ""] :=
  ⟨by decide, by decide,
    (empty_url_is_noop urlHostname (run urlHostname View.init
      [.typing "a.com", .enter, .delayDone (fun _ => half) "t",
       .typing ""]) (by decide)).2.1⟩

/-- C11: for the input `crypto-quick-profit.com`, parsed with the prefix to the host
`crypto-quick-profit.com`, `extractDomain` returns that host, the fixed part of the score
is `40 + 15 = 55`, both fixed factors are in the list, and for every outcome of the draws
the score before and after the cap is at least 55 and the level is `MEDIUM` or `HIGH`,
never `LOW`. -/
theorem known_scam_example (parse : String → Option String) (rnd : Nat → Draw)
    (timestamp : String)
    (h : parse "https://crypto-quick-profit.com" = some "crypto-quick-profit.com") :
    extractDomain parse "crypto-quick-profit.com" = "crypto-quick-profit.com"
    ∧ fixedScore "crypto-quick-profit.com" "crypto-quick-profit.com" = 40 + 15
    ∧ ∃ pre r, scoreUrl parse "crypto-quick-profit.com" rnd = some pre
        ∧ analyze parse "crypto-quick-profit.com" rnd timestamp = some r
        ∧ 55 ≤ pre.riskScore
        ∧ "Domain matches known scam database" ∈ r.riskFactors
        ∧ "Not using secure HTTPS connection" ∈ r.riskFactors
        ∧ 55 ≤ r.riskScore
        ∧ (r.riskLevel = "MEDIUM" ∨ r.riskLevel = "HIGH")
        ∧ r.riskLevel ≠ "LOW" := by
  have hcand : candidate "crypto-quick-profit.com" = "https://crypto-quick-profit.com" := by
    decide
  have hdom : extractDomain parse "crypto-quick-profit.com" = "crypto-quick-profit.com" := by
    simp only [extractDomain, hcand, h]
  have hF : fixedScore "crypto-quick-profit.com" "crypto-quick-profit.com" = 55 := by decide
  have hL : fixedFactors "crypto-quick-profit.com" "crypto-quick-profit.com"
      = ["Domain matches known scam database", "Not using secure HTTPS connection"] := by
    decide
  obtain ⟨extra, r, hpre, hr, hscore, hfac, -⟩ :=
    analyze_full parse "crypto-quick-profit.com" rnd timestamp
  obtain ⟨pre2, r2, -, hr2, -, -, -, hlevel, -⟩ :=
    analyze_spec parse "crypto-quick-profit.com" rnd timestamp
  have hrr : r2 = r := Option.some.inj (hr2.symm.trans hr)
  subst hrr
  rw [hdom, hF] at hpre hscore
  rw [hdom, hL] at hfac
  have hR := fillerScore_nonneg rnd
  have h55 : 55 ≤ r2.riskScore := by
    rw [hscore]; exact le_min (by omega) (by decide)
  refine ⟨hdom, hF, _, r2, hpre, hr, ?_, ?_, ?_, h55, ?_, ?_⟩
  · show (55 : Int) ≤ 55 + fillerScore rnd
    omega
  · rw [hfac]; simp
  · rw [hfac]; simp
  · rw [hlevel]
    unfold getRiskLevel
    split_ifs
    · exact Or.inr rfl
    · exact Or.inl rfl
    · omega
  · rw [hlevel]
    unfold getRiskLevel
    split_ifs
    · decide
    · decide
    · omega

/-- A run of C11 with the model of the platform parser and every draw equal to one half. -/
theorem known_scam_example_witness :
    urlHostname "https://crypto-quick-profit.com" = some "crypto-quick-profit.com"
    ∧ extractDomain urlHostname "crypto-quick-profit.com" = "crypto-quick-profit.com"
    ∧ ∃ r, analyze urlHostname "crypto-quick-profit.com" (fun _ => half) "t"
          = some r
        ∧ 55 ≤ r.riskScore ∧ r.riskLevel ≠ "LOW" := by
  obtain ⟨hdom, -, pre, r, -, hr, -, -, -, h55, -, hlow⟩ :=
    known_scam_example urlHostname (fun _ => half) "t" (by decide)
  exact ⟨by decide, hdom, r, hr, h55, hlow⟩

/-- C12: `getRecommendations score` is one of three fixed lists of four items, chosen by the
tier alone: the "do not proceed" list exactly when `getRiskLevel score` is `HIGH`, the
"extreme caution" list exactly when it is `MEDIUM`, the "relatively safe" list exactly when
it is `LOW`; and every result of `analyzeUrl` carries the recommendations and the level of
its own capped score. -/
theorem recommendations_follow_level :
    (∀ score : Int,
      (getRecommendations score = doNotProceed ↔ getRiskLevel score = "HIGH")
      ∧ (getRecommendations score = extremeCaution ↔ getRiskLevel score = "MEDIUM")
      ∧ (getRecommendations score = relativelySafe ↔ getRiskLevel score = "LOW")
      ∧ (getRecommendations score = doNotProceed ∨ getRecommendations score = extremeCaution
          ∨ getRecommendations score = relativelySafe)
      ∧ (getRecommendations score).length = 4)
    ∧ (∀ (parse : String → Option String) (url : String) (rnd : Nat → Draw)
        (timestamp : String),
        ∃ r, analyze parse url rnd timestamp = some r
          ∧ r.riskLevel = getRiskLevel r.riskScore
          ∧ r.recommendations = getRecommendations r.riskScore) := by
  constructor
  · intro score
    unfold getRecommendations getRiskLevel
    refine ⟨?_, ?_, ?_, ?_, ?_⟩ <;> split_ifs <;>
      first
        | exact ⟨fun _ => rfl, fun _ => rfl⟩
        | exact ⟨fun h => absurd h (by decide), fun h => absurd h (by decide)⟩
        | exact Or.inl rfl
        | exact Or.inr (Or.inl rfl)
        | exact Or.inr (Or.inr rfl)
        | rfl
  · intro parse url rnd timestamp
    obtain ⟨pre, r, -, hr, -, -, -, hlevel, -, hrec⟩ := analyze_spec parse url rnd timestamp
    exact ⟨r, hr, hlevel, hrec⟩

/-! ## The filler labels of a result -/

theorem fixedFactors_nodup (domain url : String) : (fixedFactors domain url).Nodup := by
  unfold fixedFactors
  split_ifs <;> decide

theorem fillerLabels_fixedFactors (domain url : String) :
    fillerLabels (fixedFactors domain url) = [] := by
  unfold fixedFactors
  split_ifs <;> decide

theorem fillerLabels_fixed_append (domain url : String) (extra : List String)
    (h : ∀ l ∈ extra, ∃ f ∈ randomFactors, f.factor = l) :
    fillerLabels (fixedFactors domain url ++ extra) = extra := by
  have h1 := fillerLabels_fixedFactors domain url
  unfold fillerLabels at h1 ⊢
  rw [List.filter_append, h1, List.nil_append, List.filter_eq_self]
  intro l hl
  obtain ⟨f, hf, hfl⟩ := h l hl
  exact List.any_eq_true.mpr ⟨f, hf, by simp [hfl]⟩

theorem card_lt_of_not_nodup (l : List Nat) (h : ¬ l.Nodup) : l.toFinset.card < l.length := by
  rcases Nat.lt_or_ge l.toFinset.card l.length with hlt | hge
  · exact hlt
  · exfalso
    apply h
    have hlen : l.dedup.length = l.length :=
      le_antisymm (List.Sublist.length_le (List.dedup_sublist l))
        (by rw [← List.card_toFinset]; exact hge)
    have heq : l.dedup = l := (List.dedup_sublist l).eq_of_length hlen
    exact List.dedup_eq_self.mp heq

theorem picks_length (rnd : Nat → Draw) : (picks rnd).length = numFactors rnd :=
  picksFrom_length rnd _ _

/-- The factor list of a result: the fixed labels, then pairwise distinct catalog labels
that are not fixed labels, one per distinct pick. -/
theorem analyze_factors (parse : String → Option String) (url : String) (rnd : Nat → Draw)
    (timestamp : String) :
    ∃ (extra : List String) (r : Analysis),
      analyze parse url rnd timestamp = some r
      ∧ r.riskFactors = fixedFactors (extractDomain parse url) url ++ extra
      ∧ extra.Nodup
      ∧ (∀ l ∈ extra, l ∉ fixedFactors (extractDomain parse url) url)
      ∧ (∀ l ∈ extra, ∃ f ∈ randomFactors, f.factor = l)
      ∧ extra.length = (picks rnd).toFinset.card := by
  obtain ⟨extra, hrun, hnd, hext, hlen⟩ := scoreUrl_spec parse url rnd
  obtain ⟨pre, r, hpre, hr, -, -, -, -, hfac, -⟩ := analyze_spec parse url rnd timestamp
  rw [hrun] at hpre
  have hp := Option.some.inj hpre
  refine ⟨extra, r, hr, ?_, hnd, fun l hl => (hext l hl).1, fun l hl => (hext l hl).2, hlen⟩
  rw [hfac, ← hp]

/-- C13: a draw in `[0,1)` gives a count `floor(3r) + 1` in `{1,2,3}` and a pick index
`floor(5r)` below 5, a valid index of the catalog of 5 entries, the products being the
rounded double products of the program; an iteration adds the
weight and label of the picked entry only if the label is not yet in the factor list; so
the factor list of a result has no duplicate, and its filler labels are as many as the
distinct picks: at most the sampled count, and fewer as soon as a pick repeats. -/
theorem filler_sampling (parse : String → Option String) (url : String) (rnd : Nat → Draw)
    (timestamp : String) :
    (∀ d : Draw, (floorMul d 3 + 1 = 1 ∨ floorMul d 3 + 1 = 2 ∨ floorMul d 3 + 1 = 3)
      ∧ floorMul d 5 < 5)
    ∧ randomFactors.length = 5
    ∧ numFactors rnd = floorMul (rnd 0) 3 + 1
    ∧ (∀ i, pickIndex rnd i = floorMul (rnd (i + 1)) 5
        ∧ ∃ f, randomFactors[pickIndex rnd i]? = some f)
    ∧ (∀ (n i : Nat) (a : Acc) (f : RandomFactor), randomFactors[pickIndex rnd i]? = some f →
        fillerLoop rnd (n + 1) i a
          = fillerLoop rnd n (i + 1)
              (if f.factor ∈ a.riskFactors then a
               else { riskScore := a.riskScore + f.score,
                      riskFactors := a.riskFactors ++ [f.factor] }))
    ∧ ∃ r, analyze parse url rnd timestamp = some r
        ∧ r.riskFactors.Nodup
        ∧ (fillerLabels r.riskFactors).length = (picks rnd).toFinset.card
        ∧ (fillerLabels r.riskFactors).length ≤ numFactors rnd
        ∧ (¬ (picks rnd).Nodup → (fillerLabels r.riskFactors).length < numFactors rnd) := by
  refine ⟨fun d => ?_, rfl, rfl, fun i => ⟨rfl, catalog_get _ (pickIndex_lt rnd i)⟩, ?_, ?_⟩
  · have h3 := floorMul_lt d 3 (by decide)
    have h5 := floorMul_lt d 5 (by decide)
    omega
  · intro n i a f hf
    by_cases hmem : f.factor ∈ a.riskFactors
    · simp only [fillerLoop, hf, hmem, if_true]
    · simp only [fillerLoop, hf, hmem, if_false]
  · obtain ⟨extra, r, hr, hfac, hnd, hnot, hcat, hlen⟩ :=
      analyze_factors parse url rnd timestamp
    have hfl : fillerLabels r.riskFactors = extra := by
      rw [hfac]; exact fillerLabels_fixed_append _ _ extra hcat
    refine ⟨r, hr, ?_, ?_, ?_, ?_⟩
    · rw [hfac]
      refine List.nodup_append.mpr ⟨fixedFactors_nodup _ _, hnd, ?_⟩
      intro l hl1 hl2
      exact hnot l hl2 hl1
    · rw [hfl, hlen]
    · rw [hfl, hlen, ← picks_length rnd]
      exact List.toFinset_card_le _
    · intro hdup
      rw [hfl, hlen, ← picks_length rnd]
      exact card_lt_of_not_nodup _ hdup

/-- A run of C13 in which rounding matters and a pick repeats: the product of
`0.6666666666666666` and 3 rounds to the double 2, so the count is 3; the product of `0.6`
and 5 rounds to the double 3, so that pick is the entry of index 3; the picks are 3, 2, 3
and the result has two filler labels, fewer than the count. -/
theorem filler_sampling_witness :
    floorMul twoThirds 3 + 1 = 3
    ∧ floorMul sixTenths 5 = 3
    ∧ numFactors (drawsOf [twoThirds, sixTenths, half, sixTenths]) = 3
    ∧ picks (drawsOf [twoThirds, sixTenths, half, sixTenths]) = [3, 2, 3]
    ∧ ∃ r, analyze urlHostname "https://example.com"
          (drawsOf [twoThirds, sixTenths, half, sixTenths]) "t" = some r
        ∧ r.riskFactors = ["Poor website design/grammar", "Promises unrealistic returns"]
        ∧ (fillerLabels r.riskFactors).length = 2
        ∧ (fillerLabels r.riskFactors).length
            < numFactors (drawsOf [twoThirds, sixTenths, half, sixTenths]) := by
  obtain ⟨-, -, -, -, -, r, hr, -, hcard, -, hlt⟩ :=
    filler_sampling urlHostname "https://example.com"
      (drawsOf [twoThirds, sixTenths, half, sixTenths]) "t"
  have hr2 : analyze urlHostname "https://example.com"
      (drawsOf [twoThirds, sixTenths, half, sixTenths]) "t"
      = some { url := "https://example.com", domain := "example.com", riskScore := 40,
               riskLevel := "MEDIUM",
               riskFactors := ["Poor website design/grammar", "Promises unrealistic returns"],
               timestamp := "t", recommendations := extremeCaution } := by decide
  have hfac : r.riskFactors
      = ["Poor website design/grammar", "Promises unrealistic returns"] := by
    rw [← Option.some.inj (hr2.symm.trans hr)]
  exact ⟨by decide, by decide, by decide, by decide, r, hr, hfac, hcard.trans (by decide),
    hlt (by decide)⟩

/-! ## The first pick -/

theorem first_pick_mem (rnd : Nat → Draw) : pickIndex rnd 0 ∈ (picks rnd).toFinset := by
  rw [List.mem_toFinset]
  show pickIndex rnd 0 ∈ picksFrom rnd 0 (floorMul (rnd 0) 3 + 1)
  exact List.mem_cons_self _ _

theorem fillerScore_ge (rnd : Nat → Draw) : 10 ≤ fillerScore rnd :=
  calc (10 : Int) ≤ weightOf (pickIndex rnd 0) :=
        (weightOf_range _ (pickIndex_lt rnd 0)).1
    _ ≤ fillerScore rnd :=
        Finset.single_le_sum (fun idx _ => weightOf_nonneg idx) (first_pick_mem rnd)

/-- The first iteration of the loop always appends the label of its pick to the labels of
the fixed checks; only catalog labels follow. -/
theorem scoreUrl_first_pick (parse : String → Option String) (url : String)
    (rnd : Nat → Draw) (f : RandomFactor) (hf : randomFactors[pickIndex rnd 0]? = some f) :
    ∃ (pre : Acc) (rest : List String),
      scoreUrl parse url rnd = some pre
      ∧ pre.riskFactors = fixedFactors (extractDomain parse url) url ++ f.factor :: rest
      ∧ (∀ l ∈ rest, ∃ g ∈ randomFactors, g.factor = l) := by
  have hnot : f.factor ∉ (fixedChecks (extractDomain parse url) url).riskFactors :=
    fun hmem => by
      have := (fixedFactors_catalog (extractDomain parse url) url _ f hf).mp hmem
      simp at this
  have hS : ∀ idx g, randomFactors[idx]? = some g →
      (g.factor ∈ (fixedChecks (extractDomain parse url) url).riskFactors ++ [f.factor]
        ↔ idx ∈ ({pickIndex rnd 0} : Finset Nat)) := by
    intro idx g hg
    rw [List.mem_append, List.mem_singleton, Finset.mem_singleton,
      fixedFactors_catalog (extractDomain parse url) url idx g hg,
      catalog_label_inj idx (pickIndex rnd 0) g f hg hf]
    simp
  obtain ⟨rest, hrun, -, hext, -⟩ :=
    fillerLoop_spec rnd (floorMul (rnd 0) 3) 1
      { riskScore := (fixedChecks (extractDomain parse url) url).riskScore + f.score,
        riskFactors := (fixedChecks (extractDomain parse url) url).riskFactors ++ [f.factor] }
      {pickIndex rnd 0} hS
  have hstep : scoreUrl parse url rnd
      = fillerLoop rnd (floorMul (rnd 0) 3) 1
          { riskScore := (fixedChecks (extractDomain parse url) url).riskScore + f.score,
            riskFactors :=
              (fixedChecks (extractDomain parse url) url).riskFactors ++ [f.factor] } := by
    show fillerLoop rnd (floorMul (rnd 0) 3 + 1) 0 (fixedChecks (extractDomain parse url) url)
      = _
    simp only [fillerLoop, hf, hnot, if_false]
  exact ⟨_, rest, hstep.trans hrun, by simp [fixedChecks_eq], fun l hl => (hext l hl).2⟩

/-- C14: the first filler pick is always accepted, since no label of a fixed check is a
catalog label; so every result has the labels of the fixed checks that fire, in the order
domain, pattern, HTTPS, then the label of the first pick, then only filler labels; its
factor list is not empty, it has at least one filler label, and its score is at least 10,
never 0. -/
theorem first_pick_accepted (parse : String → Option String) (url : String)
    (rnd : Nat → Draw) (timestamp : String) :
    (∀ g ∈ randomFactors,
      g.factor ≠ "Domain matches known scam database"
      ∧ g.factor ≠ "Uses URL shortener or suspicious redirect"
      ∧ g.factor ≠ "Not using secure HTTPS connection")
    ∧ ∃ (f : RandomFactor) (rest : List String) (r : Analysis),
        randomFactors[pickIndex rnd 0]? = some f
        ∧ analyze parse url rnd timestamp = some r
        ∧ r.riskFactors
            = ((if scamIndicators.domains.any (fun scam => includes (extractDomain parse url) scam)
                  then ["Domain matches known scam database"] else [])
                ++ (if scamIndicators.suspiciousPatterns.any (fun pattern => includes url pattern)
                  then ["Uses URL shortener or suspicious redirect"] else [])
                ++ (if startsWith url "https://" then []
                  else ["Not using secure HTTPS connection"]))
              ++ f.factor :: rest
        ∧ (∀ l ∈ f.factor :: rest, ∃ g ∈ randomFactors, g.factor = l)
        ∧ fillerLabels r.riskFactors = f.factor :: rest
        ∧ 1 ≤ (fillerLabels r.riskFactors).length
        ∧ r.riskFactors ≠ []
        ∧ 10 ≤ r.riskScore
        ∧ r.riskScore ≠ 0 := by
  refine ⟨fun g hg => catalog_mem_not_fixed g.factor ⟨g, hg, rfl⟩, ?_⟩
  obtain ⟨f, hf⟩ := catalog_get (pickIndex rnd 0) (pickIndex_lt rnd 0)
  obtain ⟨pre, rest, hpre, hfac, hrest⟩ := scoreUrl_first_pick parse url rnd f hf
  obtain ⟨pre2, r, hpre2, hr, -, -, hscore, -, hrf, -⟩ := analyze_spec parse url rnd timestamp
  obtain ⟨extra, hrun, -⟩ := scoreUrl_spec parse url rnd
  have hp : pre2 = pre := Option.some.inj (hpre2.symm.trans hpre)
  subst hp
  have hval : pre2.riskScore
      = fixedScore (extractDomain parse url) url + fillerScore rnd := by
    rw [hrun] at hpre2
    rw [← Option.some.inj hpre2]
  have hcat : ∀ l ∈ f.factor :: rest, ∃ g ∈ randomFactors, g.factor = l := by
    intro l hl
    rcases List.mem_cons.mp hl with rfl | hl
    · exact ⟨f, List.getElem?_mem hf, rfl⟩
    · exact hrest l hl
  have hlist : r.riskFactors
      = fixedFactors (extractDomain parse url) url ++ f.factor :: rest := hrf.trans hfac
  have hfl : fillerLabels r.riskFactors = f.factor :: rest := by
    rw [hlist]; exact fillerLabels_fixed_append _ _ _ hcat
  have h10 : 10 ≤ r.riskScore := by
    rw [hscore, hval]
    have h1 := fixedScore_nonneg (extractDomain parse url) url
    have h2 := fillerScore_ge rnd
    exact le_min (by omega) (by decide)
  refine ⟨f, rest, r, hf, hr, hlist, hcat, hfl, ?_, ?_, h10, by omega⟩
  · rw [hfl]; simp
  · rw [hlist]; simp

end CryptoScamChecker
